import Mathlib

/-!
# Verification of the beets-metaimport metadata merge/apply core

Shallow embedding of the merge-and-apply logic of
`src/beetsplug/metaimport.py` (`MetaImportPlugin`):

* `_merge_metadata_for_item` (lines 575-604)  →  `mergeMetadataForItem`
* `_get_proposed_changes`    (lines 514-529)  →  `getProposedChanges`
* `_apply_changes`           (lines 554-573)  →  `applyChanges`

Python values that flow through these functions are scalars (strings,
integers, `None`) and lists thereof; Python dicts are modelled as
insertion-ordered association lists (`Dict`), matching Python dict
semantics: assignment to an existing key replaces the value in place,
assignment to a fresh key appends.
-/

namespace MetaImport

/-- A Python value as used by the plugin's metadata dictionaries:
strings, integers, `None`, or (nested) lists. -/
inductive Value where
  | null : Value
  | str (s : String) : Value
  | int (n : Int) : Value
  | list (l : List Value) : Value
deriving Repr

mutual

/-- Python `==` on the values we model (structural equality). -/
def Value.beq : Value → Value → Bool
  | .null, .null => true
  | .str a, .str b => a == b
  | .int a, .int b => a == b
  | .list as, .list bs => Value.listBeq as bs
  | _, _ => false

/-- Element-wise Python `==` on lists of values. -/
def Value.listBeq : List Value → List Value → Bool
  | [], [] => true
  | a :: as, b :: bs => Value.beq a b && Value.listBeq as bs
  | _, _ => false

end

mutual

theorem Value.beq_iff : ∀ a b : Value, (Value.beq a b = true ↔ a = b)
  | .null, .null => by simp [Value.beq]
  | .null, .str _ => by simp [Value.beq]
  | .null, .int _ => by simp [Value.beq]
  | .null, .list _ => by simp [Value.beq]
  | .str _, .null => by simp [Value.beq]
  | .str _, .str _ => by simp [Value.beq]
  | .str _, .int _ => by simp [Value.beq]
  | .str _, .list _ => by simp [Value.beq]
  | .int _, .null => by simp [Value.beq]
  | .int _, .str _ => by simp [Value.beq]
  | .int _, .int _ => by simp [Value.beq]
  | .int _, .list _ => by simp [Value.beq]
  | .list _, .null => by simp [Value.beq]
  | .list _, .str _ => by simp [Value.beq]
  | .list _, .int _ => by simp [Value.beq]
  | .list as, .list bs => by
      have h := Value.listBeq_iff as bs
      simp [Value.beq, h]

theorem Value.listBeq_iff : ∀ as bs : List Value, (Value.listBeq as bs = true ↔ as = bs)
  | [], [] => by simp [Value.listBeq]
  | [], _ :: _ => by simp [Value.listBeq]
  | _ :: _, [] => by simp [Value.listBeq]
  | a :: as, b :: bs => by
      have h1 := Value.beq_iff a b
      have h2 := Value.listBeq_iff as bs
      simp [Value.listBeq, h1, h2]

end

instance : DecidableEq Value := fun a b =>
  decidable_of_iff (Value.beq a b = true) (Value.beq_iff a b)

/-- Python truthiness (`if value:`) for the values we model:
`None`, `""`, `0` and `[]` are falsy, everything else truthy. -/
def Value.truthy : Value → Bool
  | .null => false
  | .str s => s != ""
  | .int n => n != 0
  | .list l => !l.isEmpty

/-- Is the value a Python list (`isinstance(v, list)`)? -/
def Value.isList : Value → Bool
  | .list _ => true
  | _ => false

/-- A Python dict keyed by strings, as an insertion-ordered
association list. -/
abbrev Dict (α : Type) := List (String × α)

/-- `d[k]` / `k in d`: lookup of the first (hence, for a genuine dict,
the unique) binding of `k`. -/
def dictGet {α : Type} : Dict α → String → Option α
  | [], _ => none
  | kv :: rest, k => if kv.1 = k then some kv.2 else dictGet rest k

/-- `k in d` as a Bool. -/
def dictContains {α : Type} (d : Dict α) (k : String) : Bool :=
  (dictGet d k).isSome

/-- `d[k] = v`: replace the binding in place if the key is present,
append it otherwise — Python dict assignment. -/
def dictSet {α : Type} : Dict α → String → α → Dict α
  | [], k, v => [(k, v)]
  | kv :: rest, k, v =>
    if kv.1 = k then (k, v) :: rest else kv :: dictSet rest k v

/-! ## The merge step (`_merge_metadata_for_item`, lines 575-604)

The Python method reads configuration (`merge_strategy`, `exclude_fields`),
the configured source order `self.sources`, and the nested map
`metadata[source][item]`.  Here the item is fixed, so the guarded nested
access `source in metadata and metadata[source] and item in metadata[source]`
is modelled by a single `metadata : String → Option (Dict Value)` giving the
per-item raw metadata of each source when all three guards pass. -/

/-- One inner-loop iteration of the `'all'` (union) branch, lines 585-594:
```
if key not in exclude_fields and value:
    if key not in merged: merged[key] = value
    elif isinstance(merged[key], list):
        if value not in merged[key]: merged[key].append(value)
    else:
        if merged[key] != value: merged[key] = [merged[key], value]
```
-/
def unionStep (exclude_fields : List String) (merged : Dict Value)
    (kv : String × Value) : Dict Value :=
  if !exclude_fields.contains kv.1 && kv.2.truthy then
    match dictGet merged kv.1 with
    | none => dictSet merged kv.1 kv.2
    | some (Value.list l) =>
        if !l.contains kv.2 then dictSet merged kv.1 (Value.list (l ++ [kv.2]))
        else merged
    | some old =>
        if old ≠ kv.2 then dictSet merged kv.1 (Value.list [old, kv.2])
        else merged
  else merged

/-- One inner-loop iteration of the priority branch, lines 600-602:
```
if key not in exclude_fields and key not in merged and value:
    merged[key] = value
```
-/
def priorityStep (exclude_fields : List String) (merged : Dict Value)
    (kv : String × Value) : Dict Value :=
  if !exclude_fields.contains kv.1 && !dictContains merged kv.1 && kv.2.truthy then
    dictSet merged kv.1 kv.2
  else merged

/-- Fold one source's per-item dict into the accumulator, skipping sources
with no (truthy, item-containing) metadata — the
`if source in metadata and metadata[source] and item in metadata[source]`
guard of lines 583 and 598. -/
def mergeSource (step : Dict Value → String × Value → Dict Value)
    (metadata : String → Option (Dict Value))
    (merged : Dict Value) (source : String) : Dict Value :=
  match metadata source with
  | some source_meta => source_meta.foldl step merged
  | none => merged

/-- `_merge_metadata_for_item` (lines 575-604): union merge when the
configured strategy string equals `"all"`, priority merge otherwise. -/
def mergeMetadataForItem (strategy : String) (sources : List String)
    (metadata : String → Option (Dict Value))
    (exclude_fields : List String) : Dict Value :=
  if strategy = "all" then
    sources.foldl (mergeSource (unionStep exclude_fields) metadata) []
  else
    sources.foldl (mergeSource (priorityStep exclude_fields) metadata) []

/-! ## Change detection (`_get_proposed_changes`, lines 514-529)

The beets `Item` is modelled by its attribute map
`item : String → Option Value`: `hasattr(item, key)` is `(item key).isSome`
and `getattr(item, key)` is the value under `some`.  The per-field
`try/except` only guards attribute access, which is total here. -/

/-- One loop iteration of `_get_proposed_changes` (lines 517-525):
```
if hasattr(item, key):
    current_value = getattr(item, key)
    if current_value != value:
        changes[key] = {'current': current_value, 'new': value}
```
-/
def gpcStep (item : String → Option Value)
    (changes : Dict (Value × Value)) (kv : String × Value) : Dict (Value × Value) :=
  match item kv.1 with
  | some current_value =>
      if current_value ≠ kv.2 then dictSet changes kv.1 (current_value, kv.2)
      else changes
  | none => changes

/-- `_get_proposed_changes`: for each `(key, value)` of the merged metadata,
record `{current, new}` when the item has the attribute and its current
value differs. -/
def getProposedChanges (item : String → Option Value)
    (metadata : Dict Value) : Dict (Value × Value) :=
  metadata.foldl (gpcStep item) []

/-! ## Applying changes (`_apply_changes`, lines 554-573)

`setattr(item, key, values['new'])` may raise; which writes fail is
modelled by the oracle `fails : String → Bool` (the `except` clause
catches the failure and moves on).  The source accumulates the successful
writes in `applied_changes` as formatted log strings
`f'{key}: {current} -> {new}'`; the key identifies the write, so the
accumulator is modelled as the list of keys written.  `item.store()` is
called exactly when `applied_changes` is non-empty (line 565); `stored`
records whether that call happens. -/

/-- Result of `_apply_changes`: the item's final attribute map, the
successfully written fields in write order, and whether `item.store()`
was invoked. -/
structure ApplyResult where
  item : String → Option Value
  applied_changes : List String
  stored : Bool

/-- One loop iteration of `_apply_changes` (lines 557-563): attempt
`setattr(item, key, values['new'])`; on success append to
`applied_changes`, on failure log and continue. -/
def applyStep (fails : String → Bool)
    (st : (String → Option Value) × List String)
    (kv : String × (Value × Value)) : (String → Option Value) × List String :=
  if fails kv.1 then st
  else (fun k => if k = kv.1 then some kv.2.2 else st.1 k, st.2 ++ [kv.1])

/-- `_apply_changes` (lines 554-573). -/
def applyChanges (fails : String → Bool) (item : String → Option Value)
    (changes : Dict (Value × Value)) : ApplyResult :=
  let res := changes.foldl (applyStep fails) (item, [])
  { item := res.1, applied_changes := res.2, stored := !res.2.isEmpty }

/-! ## Spec-side definition for the priority-strategy refinement claim -/

/-- Modelled from the spec's words for the priority strategy: the merged
value of a field is the first truthy value for it contributed by the
earliest source, scanning sources in priority order (and, within one
source's dict, entries in order). -/
def firstTruthy (sources : List String)
    (metadata : String → Option (Dict Value)) (k : String) : Option Value :=
  match sources with
  | [] => none
  | s :: rest =>
    match (metadata s).bind
        (fun d => d.find? (fun kv => kv.1 == k && kv.2.truthy)) with
    | some kv => some kv.2
    | none => firstTruthy rest metadata k

/-- Per-key outcome of the union branch (lines 587-594), as a function of
the value already merged for the key (if any) and the incoming value:
set when unset, append when meeting a list it is not a member of, wrap
into `[old, new]` when meeting a differing non-list value, no-op when
equal.  `unionStep` realizes exactly this at its own key whenever its
exclusion/truthiness guard passes. -/
def unionResolve (old? : Option Value) (v : Value) : Option Value :=
  match old? with
  | none => some v
  | some (Value.list l) =>
      if v ∈ l then some (Value.list l) else some (Value.list (l ++ [v]))
  | some old => if old = v then some old else some (Value.list [old, v])

/-! ## Concrete inputs used by witnesses and counterexamples -/

/-- Two sources disagreeing on `genre` (the spec's union example). -/
def mdGenreAB : String → Option (Dict Value) := fun s =>
  if s = "A" then some [("genre", Value.str "Rock")]
  else if s = "B" then some [("genre", Value.str "Pop")] else none

/-- The spec's priority example: A has `year`, B has `year` and `label`. -/
def mdYearLabel : String → Option (Dict Value) := fun s =>
  if s = "A" then some [("year", Value.int 2001)]
  else if s = "B" then some [("year", Value.int 2005), ("label", Value.str "X")]
  else none

/-- A single source contributing the numeric value `0`. -/
def mdTrackZero : String → Option (Dict Value) := fun s =>
  if s = "A" then some [("track", Value.int 0)] else none

/-- A single source contributing a raw list with duplicate elements. -/
def mdDupList : String → Option (Dict Value) := fun s =>
  if s = "A" then some [("genre", Value.list [Value.str "Rock", Value.str "Rock"])]
  else none

/-- A concrete item snapshot: `title = "Old"`, `year = 1999`. -/
def itemOld : String → Option Value := fun k =>
  if k = "title" then some (Value.str "Old")
  else if k = "year" then some (Value.int 1999) else none

/-! ## Association-list lemmas -/

theorem dictGet_dictSet {α : Type} (d : Dict α) (k k' : String) (v : α) :
    dictGet (dictSet d k v) k' = if k = k' then some v else dictGet d k' := by
  induction d with
  | nil => simp [dictGet, dictSet]
  | cons kv rest ih =>
      by_cases h : kv.1 = k
      · subst h
        by_cases h' : kv.1 = k' <;> simp [dictSet, dictGet, h']
      · by_cases h' : kv.1 = k'
        · subst h'
          have hne : ¬k = kv.1 := fun hkk => h hkk.symm
          simp [dictSet, dictGet, h, ih, hne]
        · simp [dictSet, dictGet, h, h', ih]

theorem dictGet_eq_none_iff {α : Type} (d : Dict α) (k : String) :
    dictGet d k = none ↔ k ∉ d.map Prod.fst := by
  induction d with
  | nil => simp [dictGet]
  | cons kv rest ih =>
      by_cases h : kv.1 = k
      · subst h
        simp [dictGet]
      · simp only [dictGet, if_neg h, List.map_cons, List.mem_cons]
        rw [ih]
        constructor
        · intro hk hor
          rcases hor with h1 | h1
          · exact h h1.symm
          · exact hk h1
        · intro hk h1
          exact hk (Or.inr h1)

theorem dictGet_some_mem {α : Type} (d : Dict α) (k : String) (v : α)
    (h : dictGet d k = some v) : (k, v) ∈ d := by
  induction d with
  | nil => simp [dictGet] at h
  | cons kv rest ih =>
      by_cases hk : kv.1 = k
      · subst hk
        have h2 : some kv.2 = some v := by
          rw [← h]
          simp [dictGet]
        rw [← Option.some.inj h2]
        simp
      · simp only [dictGet, if_neg hk] at h
        exact List.mem_cons_of_mem _ (ih h)

theorem dictGet_of_mem_nodup {α : Type} (d : Dict α) (k : String) (v : α)
    (hd : (d.map Prod.fst).Nodup) (h : (k, v) ∈ d) : dictGet d k = some v := by
  induction d with
  | nil => simp at h
  | cons kv rest ih =>
      simp only [List.map_cons, List.nodup_cons] at hd
      rcases List.mem_cons.mp h with h1 | h1
      · subst h1
        simp [dictGet]
      · have hk : kv.1 ≠ k := by
          intro he
          exact hd.1 (he ▸ List.mem_map_of_mem Prod.fst h1)
        simp only [dictGet, if_neg hk]
        exact ih hd.2 h1

theorem dictSet_map_fst {α : Type} (d : Dict α) (k : String) (v : α) :
    (dictSet d k v).map Prod.fst =
      if k ∈ d.map Prod.fst then d.map Prod.fst else d.map Prod.fst ++ [k] := by
  induction d with
  | nil => simp [dictSet]
  | cons kv rest ih =>
      by_cases h : kv.1 = k
      · subst h
        simp [dictSet]
      · have hne : ¬k = kv.1 := fun hkk => h hkk.symm
        by_cases hm : k ∈ rest.map Prod.fst
        · simp [dictSet, h, ih, hm, hne]
        · simp [dictSet, h, ih, hm, hne]

theorem dictSet_nodup {α : Type} (d : Dict α) (k : String) (v : α)
    (hd : (d.map Prod.fst).Nodup) : ((dictSet d k v).map Prod.fst).Nodup := by
  rw [dictSet_map_fst]
  by_cases hm : k ∈ d.map Prod.fst
  · simpa [hm] using hd
  · simp only [hm, if_false]
    exact hd.append (List.nodup_singleton k) (by simpa using hm)

/-- Accumulator-invariant preservation along `List.foldl`. -/
theorem foldl_preserve {α β : Type} (P : α → Prop) (f : α → β → α) :
    ∀ (l : List β) (a : α), (∀ x b, b ∈ l → P x → P (f x b)) → P a →
      P (l.foldl f a)
  | [], _, _, ha => ha
  | b :: l, a, hf, ha =>
      foldl_preserve P f l (f a b)
        (fun x b' hb' => hf x b' (List.mem_cons_of_mem _ hb'))
        (hf a b (List.mem_cons_self _ _) ha)

/-! ## Locality of the merge steps -/

theorem unionStep_get_ne (exclude : List String) (m : Dict Value)
    (kv : String × Value) (k : String) (h : ¬kv.1 = k) :
    dictGet (unionStep exclude m kv) k = dictGet m k := by
  unfold unionStep
  split
  · split
    · simp [dictGet_dictSet, h]
    · split
      · simp [dictGet_dictSet, h]
      · rfl
    · split
      · simp [dictGet_dictSet, h]
      · rfl
  · rfl

theorem priorityStep_get_ne (exclude : List String) (m : Dict Value)
    (kv : String × Value) (k : String) (h : ¬kv.1 = k) :
    dictGet (priorityStep exclude m kv) k = dictGet m k := by
  unfold priorityStep
  split
  · simp [dictGet_dictSet, h]
  · rfl

theorem unionStep_get_excluded (exclude : List String) (m : Dict Value)
    (kv : String × Value) (k : String) (hk : exclude.contains k = true) :
    dictGet (unionStep exclude m kv) k = dictGet m k := by
  by_cases h : kv.1 = k
  · subst h
    have hk' : kv.1 ∈ exclude := by simpa using hk
    unfold unionStep
    simp [hk']
  · exact unionStep_get_ne exclude m kv k h

theorem priorityStep_get_excluded (exclude : List String) (m : Dict Value)
    (kv : String × Value) (k : String) (hk : exclude.contains k = true) :
    dictGet (priorityStep exclude m kv) k = dictGet m k := by
  by_cases h : kv.1 = k
  · subst h
    have hk' : kv.1 ∈ exclude := by simpa using hk
    unfold priorityStep
    simp [hk']
  · exact priorityStep_get_ne exclude m kv k h

theorem merge_get_excluded (strategy : String) (sources : List String)
    (metadata : String → Option (Dict Value)) (exclude : List String)
    (k : String) (hk : exclude.contains k = true) :
    dictGet (mergeMetadataForItem strategy sources metadata exclude) k = none := by
  unfold mergeMetadataForItem
  split
  · refine foldl_preserve (fun m => dictGet m k = none) _ sources [] ?_ rfl
    intro m s _ hm
    unfold mergeSource
    cases hms : metadata s with
    | none => exact hm
    | some d =>
        refine foldl_preserve (fun m' => dictGet m' k = none) _ d m ?_ hm
        intro m' kv _ hm'
        rw [unionStep_get_excluded exclude m' kv k hk]
        exact hm'
  · refine foldl_preserve (fun m => dictGet m k = none) _ sources [] ?_ rfl
    intro m s _ hm
    unfold mergeSource
    cases hms : metadata s with
    | none => exact hm
    | some d =>
        refine foldl_preserve (fun m' => dictGet m' k = none) _ d m ?_ hm
        intro m' kv _ hm'
        rw [priorityStep_get_excluded exclude m' kv k hk]
        exact hm'

theorem gpc_get_none (item : String → Option Value) (md : Dict Value) (k : String)
    (h : dictGet md k = none) :
    dictGet (getProposedChanges item md) k = none := by
  unfold getProposedChanges
  refine foldl_preserve (fun c => dictGet c k = none) _ md [] ?_ rfl
  intro c kv hkv hc
  have hne : ¬kv.1 = k := by
    intro he
    exact (dictGet_eq_none_iff md k).mp h (he ▸ List.mem_map_of_mem Prod.fst hkv)
  unfold gpcStep
  split
  · split
    · simp [dictGet_dictSet, hne, hc]
    · exact hc
  · exact hc

/-- C1: a field name contained in the configured exclusion list never
appears in the merged metadata returned by `_merge_metadata_for_item`
(under any strategy, any sources, any per-source metadata), and hence
never appears in the change set `_get_proposed_changes` computes from
that merged metadata. -/
theorem excluded_never_in_merge_or_changes
    (strategy : String) (sources : List String)
    (metadata : String → Option (Dict Value)) (exclude : List String)
    (item : String → Option Value) (k : String)
    (hk : exclude.contains k = true) :
    dictGet (mergeMetadataForItem strategy sources metadata exclude) k = none ∧
    dictGet (getProposedChanges item
      (mergeMetadataForItem strategy sources metadata exclude)) k = none := by
  have h1 := merge_get_excluded strategy sources metadata exclude k hk
  exact ⟨h1, gpc_get_none _ _ _ h1⟩

/-- Witness for C1 at a concrete input: excluding `genre` removes it from
both the union-merged metadata and the resulting change set. -/
theorem excluded_never_in_merge_or_changes_witness :
    dictGet (mergeMetadataForItem "all" ["A", "B"] mdGenreAB ["genre"]) "genre" = none ∧
    dictGet (getProposedChanges itemOld
      (mergeMetadataForItem "all" ["A", "B"] mdGenreAB ["genre"])) "genre" = none :=
  excluded_never_in_merge_or_changes "all" ["A", "B"] mdGenreAB ["genre"]
    itemOld "genre" (by decide)

/-! ## The priority strategy computes the first truthy value per field -/

theorem priority_fold_get (exclude : List String) (k : String)
    (hk : exclude.contains k = false) (sm : Dict Value) :
    ∀ m : Dict Value,
    dictGet (sm.foldl (priorityStep exclude) m) k =
      match dictGet m k with
      | some v => some v
      | none => (sm.find? (fun kv => kv.1 == k && kv.2.truthy)).map Prod.snd := by
  induction sm with
  | nil =>
      intro m
      cases hm : dictGet m k <;> simp [hm]
  | cons kv rest ih =>
      intro m
      rw [List.foldl_cons]
      by_cases hkv : kv.1 = k
      · subst hkv
        cases hm : dictGet m kv.1 with
        | some v =>
            have hstep : priorityStep exclude m kv = m := by
              unfold priorityStep
              simp [dictContains, hm]
            rw [hstep, ih m, hm]
        | none =>
            by_cases ht : kv.2.truthy = true
            · have hnx : kv.1 ∉ exclude := by simpa using hk
              have hstep : priorityStep exclude m kv =
                  dictSet m kv.1 kv.2 := by
                unfold priorityStep
                simp [dictContains, hm, ht, hnx]
              have hget : dictGet (dictSet m kv.1 kv.2) kv.1 = some kv.2 := by
                simp [dictGet_dictSet]
              have hfind : List.find? (fun kv' => kv'.1 == kv.1 && kv'.2.truthy)
                  (kv :: rest) = some kv :=
                List.find?_cons_of_pos _ (by simp [ht])
              rw [hstep, ih, hget]
              simp [hm, hfind]
            · have hstep : priorityStep exclude m kv = m := by
                unfold priorityStep
                simp [ht]
              have hfind : List.find? (fun kv' => kv'.1 == kv.1 && kv'.2.truthy)
                  (kv :: rest) =
                  List.find? (fun kv' => kv'.1 == kv.1 && kv'.2.truthy) rest :=
                List.find?_cons_of_neg _ (by simp [ht])
              rw [hstep, ih]
              simp [hm, hfind]
      · rw [ih (priorityStep exclude m kv), priorityStep_get_ne exclude m kv k hkv]
        cases hm : dictGet m k with
        | some v => rfl
        | none =>
            have hfind : List.find? (fun kv' => kv'.1 == k && kv'.2.truthy)
                (kv :: rest) =
                List.find? (fun kv' => kv'.1 == k && kv'.2.truthy) rest :=
              List.find?_cons_of_neg _ (by simp [hkv])
            rw [hfind]

theorem priority_sources_get (exclude : List String) (k : String)
    (metadata : String → Option (Dict Value))
    (hk : exclude.contains k = false) (sources : List String) :
    ∀ m : Dict Value,
    dictGet (sources.foldl (mergeSource (priorityStep exclude) metadata) m) k =
      match dictGet m k with
      | some v => some v
      | none => firstTruthy sources metadata k := by
  induction sources with
  | nil =>
      intro m
      cases hm : dictGet m k <;> simp [hm, firstTruthy]
  | cons s rest ih =>
      intro m
      rw [List.foldl_cons]
      rw [ih]
      cases hms : metadata s with
      | none =>
          have hsrc : mergeSource (priorityStep exclude) metadata m s = m := by
            unfold mergeSource
            rw [hms]
          rw [hsrc]
          cases hm : dictGet m k with
          | some v => rfl
          | none => simp [firstTruthy, hms]
      | some d =>
          have hsrc : mergeSource (priorityStep exclude) metadata m s =
              d.foldl (priorityStep exclude) m := by
            unfold mergeSource
            rw [hms]
          rw [hsrc, priority_fold_get exclude k hk d m]
          cases hm : dictGet m k with
          | some v => rfl
          | none =>
              cases hfd : d.find? (fun kv => kv.1 == k && kv.2.truthy) with
              | some kv => simp [firstTruthy, hms, hfd]
              | none => simp [firstTruthy, hms, hfd]

/-- C2: under the priority strategy the merged value of any non-excluded
field is the first truthy value contributed by the earliest source
providing one (`firstTruthy`), and a field already set in the
accumulator is never overwritten by processing further sources. -/
theorem priority_first_source_wins (sources : List String)
    (metadata : String → Option (Dict Value)) (exclude : List String)
    (k : String) (hk : exclude.contains k = false) :
    dictGet (mergeMetadataForItem "priority" sources metadata exclude) k =
      firstTruthy sources metadata k ∧
    ∀ (m : Dict Value) (v : Value), dictGet m k = some v →
      dictGet (sources.foldl (mergeSource (priorityStep exclude) metadata) m) k =
        some v := by
  constructor
  · have h := priority_sources_get exclude k metadata hk sources []
    unfold mergeMetadataForItem
    simpa using h
  · intro m v hm
    rw [priority_sources_get exclude k metadata hk sources m, hm]

/-- Witness for C2 at the spec's example: sources `["A","B"]` with
`A = {year: 2001}`, `B = {year: 2005, label: "X"}` merge to
`{year: 2001, label: "X"}` under priority. -/
theorem priority_first_source_wins_witness :
    dictGet (mergeMetadataForItem "priority" ["A", "B"] mdYearLabel []) "year" =
      firstTruthy ["A", "B"] mdYearLabel "year" ∧
    firstTruthy ["A", "B"] mdYearLabel "year" = some (Value.int 2001) ∧
    dictGet (mergeMetadataForItem "priority" ["A", "B"] mdYearLabel []) "label" =
      some (Value.str "X") :=
  ⟨(priority_first_source_wins ["A", "B"] mdYearLabel [] "year" (by decide)).1,
   by decide, by decide⟩

/-! ## The union strategy is selected by the string `"all"` -/

/-- C3 counterexample: invoking the merge with the strategy string
`"union"` does not produce union behavior — the code only recognizes
`"all"` (line 580) and everything else takes the priority branch — so
merging `genre = "Rock"` (source A) then `genre = "Pop"` (source B)
yields the scalar `"Rock"`, not the claimed `["Rock", "Pop"]`. -/
theorem union_string_not_recognized :
    dictGet (mergeMetadataForItem "union" ["A", "B"] mdGenreAB []) "genre" =
      some (Value.str "Rock") ∧
    ¬ dictGet (mergeMetadataForItem "union" ["A", "B"] mdGenreAB []) "genre" =
      some (Value.list [Value.str "Rock", Value.str "Pop"]) := by
  constructor
  · decide
  · decide

/-- C3 amended: the union behavior is selected by the strategy string
`"all"` (the code's name for the union mode).  Under it the merge folds
`unionStep` over the sources in order, and for every truthy (non-empty),
non-excluded field the step behaves exactly as claimed: an unset field is
set to the scalar value; a differing value meeting an existing scalar
becomes the two-element list `[old, new]`; a value meeting an existing
list is appended exactly when not already a member; an equal value
changes nothing. -/
theorem all_strategy_union_behavior (sources : List String)
    (metadata : String → Option (Dict Value)) (exclude : List String)
    (m : Dict Value) (k : String) (v : Value)
    (hv : v.truthy = true) (hk : exclude.contains k = false) :
    mergeMetadataForItem "all" sources metadata exclude =
      sources.foldl (mergeSource (unionStep exclude) metadata) [] ∧
    dictGet (unionStep exclude m (k, v)) k =
      (match dictGet m k with
       | none => some v
       | some (Value.list l) =>
           if v ∈ l then some (Value.list l) else some (Value.list (l ++ [v]))
       | some old => if old = v then some old else some (Value.list [old, v])) := by
  constructor
  · simp [mergeMetadataForItem]
  · have hnx : k ∉ exclude := by simpa using hk
    unfold unionStep
    cases hg : dictGet m k with
    | none => simp [hnx, hv, hg, dictGet_dictSet]
    | some old =>
        cases old with
        | list l =>
            by_cases hvl : v ∈ l
            · simp [hnx, hv, hg, hvl]
            · simp [hnx, hv, hg, hvl, dictGet_dictSet]
        | null =>
            by_cases ho : Value.null = v
            · subst ho
              simp [Value.truthy] at hv
            · simp [hnx, hv, hg, ho, dictGet_dictSet]
        | str s =>
            by_cases ho : Value.str s = v
            · subst ho
              simp [hnx, hv, hg]
            · simp [hnx, hv, hg, ho, dictGet_dictSet]
        | int n =>
            by_cases ho : Value.int n = v
            · subst ho
              simp [hnx, hv, hg]
            · simp [hnx, hv, hg, ho, dictGet_dictSet]

/-- Witness for the amended C3 at the spec's example: under `"all"`,
`genre = "Rock"` then `"Pop"` gives the list, and an equal second value
leaves the scalar unchanged. -/
theorem all_strategy_union_behavior_witness :
    dictGet (unionStep [] [("genre", Value.str "Rock")] ("genre", Value.str "Pop"))
        "genre" =
      some (Value.list [Value.str "Rock", Value.str "Pop"]) ∧
    dictGet (mergeMetadataForItem "all" ["A", "B"] mdGenreAB []) "genre" =
      some (Value.list [Value.str "Rock", Value.str "Pop"]) := by
  constructor
  · have h := (all_strategy_union_behavior ["A", "B"] mdGenreAB []
      [("genre", Value.str "Rock")] "genre" (Value.str "Pop")
      (by decide) (by decide)).2
    rw [h]
    decide
  · decide

/-! ## Unrecognized strategies fall back to priority -/

/-- C4: any configured strategy value other than the two modes the code
recognizes (`"priority"`, the documented default, and `"all"`, the union
mode) does not fail: the branch test on line 580 compares only against
`"all"`, so every other string merges exactly as the priority strategy. -/
theorem unrecognized_strategy_is_priority (strategy : String)
    (sources : List String) (metadata : String → Option (Dict Value))
    (exclude : List String)
    (_h1 : ¬strategy = "priority") (h2 : ¬strategy = "all") :
    mergeMetadataForItem strategy sources metadata exclude =
      mergeMetadataForItem "priority" sources metadata exclude := by
  unfold mergeMetadataForItem
  rw [if_neg h2, if_neg (by decide : ¬("priority" = "all"))]

/-- Witness for C4: the strategy string `"union"` (recognized by neither
branch) merges exactly as `"priority"`. -/
theorem unrecognized_strategy_is_priority_witness :
    mergeMetadataForItem "union" ["A", "B"] mdYearLabel [] =
      mergeMetadataForItem "priority" ["A", "B"] mdYearLabel [] :=
  unrecognized_strategy_is_priority "union" ["A", "B"] mdYearLabel []
    (by decide) (by decide)

/-! ## Truthiness gating of source values -/

theorem unionStep_get_self (exclude : List String) (m : Dict Value)
    (kv : String × Value) :
    dictGet (unionStep exclude m kv) kv.1 =
      if (!exclude.contains kv.1 && kv.2.truthy) = true
      then unionResolve (dictGet m kv.1) kv.2
      else dictGet m kv.1 := by
  by_cases hguard : (!exclude.contains kv.1 && kv.2.truthy) = true
  · rw [if_pos hguard]
    unfold unionStep
    rw [if_pos hguard]
    cases hg : dictGet m kv.1 with
    | none => simp [unionResolve, hg, dictGet_dictSet]
    | some old =>
        cases old with
        | list l =>
            by_cases hvl : kv.2 ∈ l
            · simp [unionResolve, hg, hvl]
            · simp [unionResolve, hg, hvl, dictGet_dictSet]
        | null =>
            by_cases ho : Value.null = kv.2
            · simp [unionResolve, hg, ← ho]
            · simp [unionResolve, hg, ho, dictGet_dictSet]
        | str s =>
            by_cases ho : Value.str s = kv.2
            · simp [unionResolve, hg, ← ho]
            · simp [unionResolve, hg, ho, dictGet_dictSet]
        | int n =>
            by_cases ho : Value.int n = kv.2
            · simp [unionResolve, hg, ← ho]
            · simp [unionResolve, hg, ho, dictGet_dictSet]
  · rw [if_neg hguard]
    unfold unionStep
    rw [if_neg hguard]

theorem unionResolve_some (o : Option Value) (v r : Value)
    (h : unionResolve o v = some r) :
    o = some r ∨ r = v ∨ ∃ l : List Value, r = Value.list l ∧ l ≠ [] := by
  cases o with
  | none =>
      simp only [unionResolve, Option.some.injEq] at h
      exact Or.inr (Or.inl h.symm)
  | some old =>
      cases old with
      | list l =>
          by_cases hvl : v ∈ l
          · simp only [unionResolve, hvl, if_true, Option.some.injEq] at h
            exact Or.inl (by rw [h])
          · simp only [unionResolve, hvl, if_false, Option.some.injEq] at h
            refine Or.inr (Or.inr ⟨l ++ [v], h.symm, by simp⟩)
      | null =>
          by_cases ho : Value.null = v
          · simp only [unionResolve, ho, if_true, Option.some.injEq] at h
            exact Or.inl (by rw [ho, h])
          · simp only [unionResolve, ho, if_false, Option.some.injEq] at h
            exact Or.inr (Or.inr ⟨[Value.null, v], h.symm, by simp⟩)
      | str s =>
          by_cases ho : Value.str s = v
          · simp only [unionResolve, ho, if_true, Option.some.injEq] at h
            exact Or.inl (by rw [ho, h])
          · simp only [unionResolve, ho, if_false, Option.some.injEq] at h
            exact Or.inr (Or.inr ⟨[Value.str s, v], h.symm, by simp⟩)
      | int n =>
          by_cases ho : Value.int n = v
          · simp only [unionResolve, ho, if_true, Option.some.injEq] at h
            exact Or.inl (by rw [ho, h])
          · simp only [unionResolve, ho, if_false, Option.some.injEq] at h
            exact Or.inr (Or.inr ⟨[Value.int n, v], h.symm, by simp⟩)

theorem priorityStep_get_self (exclude : List String) (m : Dict Value)
    (kv : String × Value) :
    dictGet (priorityStep exclude m kv) kv.1 =
      if (!exclude.contains kv.1 && !dictContains m kv.1 && kv.2.truthy) = true
      then some kv.2 else dictGet m kv.1 := by
  by_cases hguard :
      (!exclude.contains kv.1 && !dictContains m kv.1 && kv.2.truthy) = true
  · rw [if_pos hguard]
    unfold priorityStep
    rw [if_pos hguard]
    simp [dictGet_dictSet]
  · rw [if_neg hguard]
    unfold priorityStep
    rw [if_neg hguard]

theorem unionStep_preserves_truthy (exclude : List String) (m : Dict Value)
    (kv : String × Value)
    (hm : ∀ k v, dictGet m k = some v → v.truthy = true) :
    ∀ k v, dictGet (unionStep exclude m kv) k = some v → v.truthy = true := by
  intro k v h
  by_cases hkey : kv.1 = k
  · subst hkey
    rw [unionStep_get_self exclude m kv] at h
    split at h
    · rename_i hguard
      have ht : kv.2.truthy = true := by
        simp only [Bool.and_eq_true] at hguard
        exact hguard.2
      rcases unionResolve_some _ _ _ h with h2 | h2 | ⟨l, h2, h3⟩
      · exact hm kv.1 v h2
      · rw [h2]
        exact ht
      · rw [h2]
        simp [Value.truthy, h3]
    · exact hm kv.1 v h
  · rw [unionStep_get_ne exclude m kv k hkey] at h
    exact hm k v h

theorem priorityStep_preserves_truthy (exclude : List String) (m : Dict Value)
    (kv : String × Value)
    (hm : ∀ k v, dictGet m k = some v → v.truthy = true) :
    ∀ k v, dictGet (priorityStep exclude m kv) k = some v → v.truthy = true := by
  intro k v h
  by_cases hkey : kv.1 = k
  · subst hkey
    rw [priorityStep_get_self exclude m kv] at h
    split at h
    · rename_i hguard
      have ht : kv.2.truthy = true := by
        simp only [Bool.and_eq_true] at hguard
        exact hguard.2
      injection h with h2
      rw [← h2]
      exact ht
    · exact hm kv.1 v h
  · rw [priorityStep_get_ne exclude m kv k hkey] at h
    exact hm k v h

theorem merge_values_truthy (strategy : String) (sources : List String)
    (metadata : String → Option (Dict Value)) (exclude : List String)
    (k : String) (v : Value)
    (h : dictGet (mergeMetadataForItem strategy sources metadata exclude) k = some v) :
    v.truthy = true := by
  have hbase : ∀ k' v', dictGet ([] : Dict Value) k' = some v' →
      Value.truthy v' = true := by
    intro k' v' h'
    simp [dictGet] at h'
  unfold mergeMetadataForItem at h
  split at h
  · have hP := foldl_preserve
      (fun m => ∀ k' v', dictGet m k' = some v' → Value.truthy v' = true)
      (mergeSource (unionStep exclude) metadata) sources [] ?_ hbase
    · exact hP k v h
    · intro m s _ hm
      unfold mergeSource
      cases hms : metadata s with
      | none => exact hm
      | some d =>
          exact foldl_preserve _ (unionStep exclude) d m
            (fun m' kv _ hm' => unionStep_preserves_truthy exclude m' kv hm') hm
  · have hP := foldl_preserve
      (fun m => ∀ k' v', dictGet m k' = some v' → Value.truthy v' = true)
      (mergeSource (priorityStep exclude) metadata) sources [] ?_ hbase
    · exact hP k v h
    · intro m s _ hm
      unfold mergeSource
      cases hms : metadata s with
      | none => exact hm
      | some d =>
          exact foldl_preserve _ (priorityStep exclude) d m
            (fun m' kv _ hm' => priorityStep_preserves_truthy exclude m' kv hm') hm

/-- C5 counterexample: a source value of numeric `0` is dropped by the
Python truthiness test `if value:` (lines 586 and 601): under both
strategies the merged dictionary comes out empty, whereas the claim
requires `track = 0` to be merged like any other value. -/
theorem zero_treated_as_absent :
    mergeMetadataForItem "priority" ["A"] mdTrackZero [] = [] ∧
    mergeMetadataForItem "all" ["A"] mdTrackZero [] = [] := by
  exact ⟨by decide, by decide⟩

/-- C5 amended: in every merge (either strategy) a source value that is
null, the empty string, an empty sequence — or the numeric value `0`,
which the code's truthiness test also treats as absent — is never placed
into the merged dictionary and never overwrites a present value: every
value the merged dictionary holds is truthy, and a falsy source value
leaves the accumulator untouched at the step level. -/
theorem falsy_values_never_merged :
    (∀ (strategy : String) (sources : List String)
       (metadata : String → Option (Dict Value)) (exclude : List String)
       (k : String) (v : Value),
       dictGet (mergeMetadataForItem strategy sources metadata exclude) k = some v →
       v.truthy = true) ∧
    (∀ (exclude : List String) (m : Dict Value) (kv : String × Value),
       kv.2.truthy = false →
       unionStep exclude m kv = m ∧ priorityStep exclude m kv = m) := by
  constructor
  · exact merge_values_truthy
  · intro exclude m kv ht
    constructor
    · unfold unionStep
      rw [if_neg (by simp [ht])]
    · unfold priorityStep
      rw [if_neg (by simp [ht])]

/-- Witness for the amended C5: the union-merged `genre` list is truthy,
and a `0`-valued source field leaves both step accumulators unchanged. -/
theorem falsy_values_never_merged_witness :
    Value.truthy (Value.list [Value.str "Rock", Value.str "Pop"]) = true ∧
    unionStep [] [("g", Value.str "R")] ("g", Value.int 0) =
      [("g", Value.str "R")] ∧
    priorityStep [] [("g", Value.str "R")] ("g", Value.int 0) =
      [("g", Value.str "R")] :=
  ⟨falsy_values_never_merged.1 "all" ["A", "B"] mdGenreAB [] "genre"
      (Value.list [Value.str "Rock", Value.str "Pop"]) (by decide),
   (falsy_values_never_merged.2 [] [("g", Value.str "R")]
      ("g", Value.int 0) (by decide)).1,
   (falsy_values_never_merged.2 [] [("g", Value.str "R")]
      ("g", Value.int 0) (by decide)).2⟩

/-! ## Exact characterization of the change set -/

theorem gpcStep_get_ne (item : String → Option Value)
    (changes : Dict (Value × Value)) (kv : String × Value) (k : String)
    (h : ¬kv.1 = k) :
    dictGet (gpcStep item changes kv) k = dictGet changes k := by
  unfold gpcStep
  split
  · split
    · simp [dictGet_dictSet, h]
    · rfl
  · rfl

theorem gpcStep_get_self (item : String → Option Value)
    (changes : Dict (Value × Value)) (kv : String × Value) :
    dictGet (gpcStep item changes kv) kv.1 =
      match item kv.1 with
      | some cur =>
          if cur ≠ kv.2 then some (cur, kv.2) else dictGet changes kv.1
      | none => dictGet changes kv.1 := by
  unfold gpcStep
  cases hi : item kv.1 with
  | none => simp [hi]
  | some cur =>
      by_cases hc : cur ≠ kv.2
      · simp [hi, hc, dictGet_dictSet]
      · simp [hi, hc]

theorem gpc_fold_get_no_key (item : String → Option Value) (k : String) :
    ∀ (md : Dict Value) (changes : Dict (Value × Value)),
    dictGet md k = none →
    dictGet (md.foldl (gpcStep item) changes) k = dictGet changes k := by
  intro md
  induction md with
  | nil => intro changes _; rfl
  | cons kv rest ih =>
      intro changes h
      simp only [dictGet] at h
      by_cases hkv : kv.1 = k
      · rw [if_pos hkv] at h
        cases h
      · rw [if_neg hkv] at h
        rw [List.foldl_cons, ih _ h, gpcStep_get_ne item changes kv k hkv]

theorem gpc_fold_get (item : String → Option Value) (k : String) :
    ∀ (md : Dict Value) (changes : Dict (Value × Value)),
    (md.map Prod.fst).Nodup →
    dictGet (md.foldl (gpcStep item) changes) k =
      match dictGet md k, item k with
      | some v, some cur =>
          if cur ≠ v then some (cur, v) else dictGet changes k
      | some _, none => dictGet changes k
      | none, _ => dictGet changes k := by
  intro md
  induction md with
  | nil =>
      intro changes _
      cases h2 : item k <;> simp [dictGet]
  | cons kv rest ih =>
      intro changes hnd
      simp only [List.map_cons, List.nodup_cons] at hnd
      rw [List.foldl_cons]
      by_cases hkv : kv.1 = k
      · subst hkv
        have hrest : dictGet rest kv.1 = none :=
          (dictGet_eq_none_iff rest kv.1).mpr hnd.1
        rw [gpc_fold_get_no_key item kv.1 rest _ hrest, gpcStep_get_self]
        have hmd : dictGet (kv :: rest) kv.1 = some kv.2 := by simp [dictGet]
        rw [hmd]
        cases hi : item kv.1 <;> simp [hi]
      · have hmd : dictGet (kv :: rest) k = dictGet rest k := by
          simp [dictGet, hkv]
        rw [ih (gpcStep item changes kv) hnd.2,
          gpcStep_get_ne item changes kv k hkv, hmd]

/-- C6: the change set computed by `_get_proposed_changes` contains
exactly those fields of the merged dictionary that the item supports
(`hasattr`; unknown fields are silently skipped) and whose merged value
differs from the item's current value, and each entry pairs the current
value with the new value. -/
theorem proposed_changes_exact (item : String → Option Value) (md : Dict Value)
    (hnd : (md.map Prod.fst).Nodup) (k : String) :
    dictGet (getProposedChanges item md) k =
      match dictGet md k, item k with
      | some v, some cur => if cur ≠ v then some (cur, v) else none
      | some _, none => none
      | none, _ => none := by
  unfold getProposedChanges
  rw [gpc_fold_get item k md [] hnd]
  cases h1 : dictGet md k <;> cases h2 : item k <;> simp [dictGet]

/-- Witness for C6 at the spec's example: against `itemOld`
(`title = "Old"`, `year = 1999`), merged `{title: "Old", year: 2020}`
proposes exactly `year: (1999, 2020)` and skips the equal `title`. -/
theorem proposed_changes_exact_witness :
    dictGet (getProposedChanges itemOld
      [("title", Value.str "Old"), ("year", Value.int 2020)]) "year" =
      some (Value.int 1999, Value.int 2020) ∧
    dictGet (getProposedChanges itemOld
      [("title", Value.str "Old"), ("year", Value.int 2020)]) "title" = none := by
  constructor
  · rw [proposed_changes_exact itemOld
      [("title", Value.str "Old"), ("year", Value.int 2020)] (by decide) "year"]
    decide
  · rw [proposed_changes_exact itemOld
      [("title", Value.str "Old"), ("year", Value.int 2020)] (by decide) "title"]
    decide

/-! ## Applying changes: partial application -/

theorem apply_fold_applied (fails : String → Bool)
    (changes : Dict (Value × Value)) :
    ∀ st : (String → Option Value) × List String,
    (changes.foldl (applyStep fails) st).2 =
      st.2 ++ (changes.map Prod.fst).filter (fun k => !fails k) := by
  induction changes with
  | nil => intro st; simp
  | cons kv rest ih =>
      intro st
      rw [List.foldl_cons, ih]
      by_cases hf : fails kv.1 = true
      · simp [applyStep, hf]
      · simp [applyStep, hf]

theorem apply_fold_item_untouched (fails : String → Bool) (k : String) :
    ∀ (changes : Dict (Value × Value))
      (st : (String → Option Value) × List String),
    (fails k = true ∨ k ∉ changes.map Prod.fst) →
    (changes.foldl (applyStep fails) st).1 k = st.1 k := by
  intro changes
  induction changes with
  | nil => intro st _; rfl
  | cons kv rest ih =>
      intro st h
      rw [List.foldl_cons]
      rcases h with h | h
      · rw [ih _ (Or.inl h)]
        unfold applyStep
        by_cases hf : fails kv.1 = true
        · rw [if_pos hf]
        · rw [if_neg hf]
          have hne : ¬k = kv.1 := fun he => hf (he ▸ h)
          exact if_neg hne
      · simp only [List.map_cons, List.mem_cons, not_or] at h
        rw [ih _ (Or.inr h.2)]
        unfold applyStep
        by_cases hf : fails kv.1 = true
        · rw [if_pos hf]
        · rw [if_neg hf]
          exact if_neg h.1

theorem apply_fold_item_written (fails : String → Bool) :
    ∀ (changes : Dict (Value × Value))
      (st : (String → Option Value) × List String) (k : String) (c n : Value),
    (changes.map Prod.fst).Nodup → (k, (c, n)) ∈ changes → fails k = false →
    (changes.foldl (applyStep fails) st).1 k = some n := by
  intro changes
  induction changes with
  | nil =>
      intro st k c n _ hmem _
      simp at hmem
  | cons kv rest ih =>
      intro st k c n hnd hmem hf
      simp only [List.map_cons, List.nodup_cons] at hnd
      rw [List.foldl_cons]
      rcases List.mem_cons.mp hmem with h1 | h1
      · have hk1 : kv.1 = k := by rw [← h1]
        have hrest : k ∉ rest.map Prod.fst := by
          rw [← hk1]
          exact hnd.1
        rw [apply_fold_item_untouched fails k rest _ (Or.inr hrest)]
        unfold applyStep
        have hfkv : ¬fails kv.1 = true := by
          rw [hk1, hf]
          simp
        rw [if_neg hfkv]
        show (if k = kv.1 then some kv.2.2 else st.1 k) = some n
        rw [if_pos hk1.symm, ← h1]
      · exact ih _ k c n hnd.2 h1 hf

/-- C7: `_apply_changes` writes each change's new value onto the item; a
field whose write fails is caught (the function is total — no exception
escapes), keeps its old value, and is excluded from `applied_changes`,
while every other field of the change set is still written; the
`applied_changes` accumulator is exactly the non-failing fields in write
order. -/
theorem apply_changes_partial_application (fails : String → Bool)
    (item : String → Option Value) (changes : Dict (Value × Value))
    (hnd : (changes.map Prod.fst).Nodup) :
    (applyChanges fails item changes).applied_changes =
      (changes.map Prod.fst).filter (fun k => !fails k) ∧
    ∀ k c n, (k, (c, n)) ∈ changes →
      (fails k = false → (applyChanges fails item changes).item k = some n) ∧
      (fails k = true → (applyChanges fails item changes).item k = item k) := by
  constructor
  · show (changes.foldl (applyStep fails) (item, [])).2 = _
    rw [apply_fold_applied fails changes (item, [])]
    rfl
  · intro k c n hmem
    constructor
    · intro hf
      exact apply_fold_item_written fails changes (item, []) k c n hnd hmem hf
    · intro hf
      exact apply_fold_item_untouched fails k changes (item, []) (Or.inl hf)

/-- Witness for C7: with the write of `bad` failing, `good` is still
written, the applied list is exactly `["good"]`, and `bad` keeps its old
(absent) value. -/
theorem apply_changes_partial_application_witness :
    (applyChanges (fun k => k == "bad") (fun _ => none)
      [("bad", (Value.null, Value.str "x")),
       ("good", (Value.null, Value.str "y"))]).applied_changes = ["good"] ∧
    (applyChanges (fun k => k == "bad") (fun _ => none)
      [("bad", (Value.null, Value.str "x")),
       ("good", (Value.null, Value.str "y"))]).item "good" =
      some (Value.str "y") ∧
    (applyChanges (fun k => k == "bad") (fun _ => none)
      [("bad", (Value.null, Value.str "x")),
       ("good", (Value.null, Value.str "y"))]).item "bad" = none := by
  have h := apply_changes_partial_application (fun k => k == "bad")
    (fun _ => none)
    [("bad", (Value.null, Value.str "x")),
     ("good", (Value.null, Value.str "y"))] (by decide)
  refine ⟨?_, ?_, ?_⟩
  · rw [h.1]
    decide
  · exact (h.2 "good" Value.null (Value.str "y") (by decide)).1 (by decide)
  · exact (h.2 "bad" Value.null (Value.str "x") (by decide)).2 (by decide)

/-! ## Idempotence: apply then recompute is empty -/

theorem dictSet_mem {α : Type} (d : Dict α) (k' : String) (v' : α)
    (k : String) (x : α) (h : (k, x) ∈ dictSet d k' v') :
    (k, x) ∈ d ∨ (k = k' ∧ x = v') := by
  induction d with
  | nil =>
      simp only [dictSet, List.mem_singleton, Prod.mk.injEq] at h
      exact Or.inr h
  | cons kv rest ih =>
      simp only [dictSet] at h
      by_cases he : kv.1 = k'
      · rw [if_pos he] at h
        rcases List.mem_cons.mp h with h1 | h1
        · simp only [Prod.mk.injEq] at h1
          exact Or.inr h1
        · exact Or.inl (List.mem_cons_of_mem _ h1)
      · rw [if_neg he] at h
        rcases List.mem_cons.mp h with h1 | h1
        · exact Or.inl (h1 ▸ List.mem_cons_self _ _)
        · rcases ih h1 with h2 | h2
          · exact Or.inl (List.mem_cons_of_mem _ h2)
          · exact Or.inr h2

theorem gpc_empty_of_agree (item : String → Option Value) :
    ∀ md : Dict Value,
    (∀ kv ∈ md, ∀ cur, item kv.1 = some cur → cur = kv.2) →
    getProposedChanges item md = [] := by
  have haux : ∀ md : Dict Value,
      (∀ kv ∈ md, ∀ cur, item kv.1 = some cur → cur = kv.2) →
      md.foldl (gpcStep item) [] = [] := by
    intro md
    induction md with
    | nil => intro _; rfl
    | cons kv rest ih =>
        intro h
        rw [List.foldl_cons]
        have hstep : gpcStep item [] kv = [] := by
          unfold gpcStep
          cases hi : item kv.1 with
          | none => simp
          | some cur =>
              have hc : cur = kv.2 := h kv (List.mem_cons_self _ _) cur hi
              simp [hc]
        rw [hstep]
        exact ih (fun kv' hkv' => h kv' (List.mem_cons_of_mem _ hkv'))
  intro md h
  exact haux md h

theorem gpc_mem_item (item : String → Option Value) :
    ∀ (md : Dict Value) (changes : Dict (Value × Value))
      (k : String) (c n : Value),
    (k, (c, n)) ∈ md.foldl (gpcStep item) changes →
    (k, (c, n)) ∈ changes ∨ (item k = some c ∧ ¬c = n) := by
  intro md
  induction md with
  | nil => intro changes k c n h; exact Or.inl h
  | cons kv rest ih =>
      intro changes k c n h
      rw [List.foldl_cons] at h
      rcases ih (gpcStep item changes kv) k c n h with h1 | h1
      · unfold gpcStep at h1
        cases hi : item kv.1 with
        | none =>
            rw [hi] at h1
            exact Or.inl h1
        | some cur =>
            rw [hi] at h1
            have h1' : (k, (c, n)) ∈
                (if cur ≠ kv.2 then dictSet changes kv.1 (cur, kv.2)
                 else changes) := h1
            by_cases hc : cur ≠ kv.2
            · rw [if_pos hc] at h1'
              rcases dictSet_mem changes kv.1 (cur, kv.2) k (c, n) h1' with h2 | h2
              · exact Or.inl h2
              · right
                have hcn : c = cur ∧ n = kv.2 := by
                  have := h2.2
                  simp only [Prod.mk.injEq] at this
                  exact this
                rw [h2.1, hcn.1]
                exact ⟨hi, by rw [hcn.2]; exact hc⟩
            · rw [if_neg hc] at h1'
              exact Or.inl h1'
      · exact Or.inr h1

theorem gpc_keys_nodup (item : String → Option Value) (md : Dict Value) :
    ((getProposedChanges item md).map Prod.fst).Nodup := by
  unfold getProposedChanges
  refine foldl_preserve (fun c => (c.map Prod.fst).Nodup) (gpcStep item)
    md [] ?_ (by simp)
  intro c kv _ hc
  unfold gpcStep
  cases hi : item kv.1 with
  | none => simpa using hc
  | some cur =>
      show (List.map Prod.fst
        (if cur ≠ kv.2 then dictSet c kv.1 (cur, kv.2) else c)).Nodup
      by_cases hchg : cur ≠ kv.2
      · rw [if_pos hchg]
        exact dictSet_nodup c kv.1 (cur, kv.2) hc
      · rw [if_neg hchg]
        exact hc

/-- C8: computing the change set of merged metadata `md` against an
item, applying it with `_apply_changes` (no write failing), and
recomputing the change set against the item's resulting state yields an
empty change set. -/
theorem apply_then_recompute_empty (item : String → Option Value)
    (md : Dict Value) (fails : String → Bool)
    (hnd : (md.map Prod.fst).Nodup)
    (hf : ∀ k, k ∈ (getProposedChanges item md).map Prod.fst →
      fails k = false) :
    getProposedChanges
      (applyChanges fails item (getProposedChanges item md)).item md = [] := by
  apply gpc_empty_of_agree
  intro kv hkv cur hcur
  have hmdk : dictGet md kv.1 = some kv.2 :=
    dictGet_of_mem_nodup md kv.1 kv.2 hnd (by simpa using hkv)
  have hitem : (applyChanges fails item (getProposedChanges item md)).item kv.1 =
      (((getProposedChanges item md).foldl (applyStep fails)
        (item, []))).1 kv.1 := rfl
  cases hi : item kv.1 with
  | none =>
      have hnotin : kv.1 ∉ (getProposedChanges item md).map Prod.fst := by
        intro hmem
        rcases List.mem_map.mp hmem with ⟨⟨k', cn⟩, hmem', he⟩
        rcases cn with ⟨c', n'⟩
        have hk' : k' = kv.1 := he
        rw [hk'] at hmem'
        rcases gpc_mem_item item md [] kv.1 c' n' hmem' with h2 | h2
        · simp at h2
        · rw [hi] at h2
          cases h2.1
      rw [hitem, apply_fold_item_untouched fails kv.1 _ _ (Or.inr hnotin)] at hcur
      have hcur2 : item kv.1 = some cur := hcur
      rw [hi] at hcur2
      cases hcur2
  | some c0 =>
      have hchar := proposed_changes_exact item md hnd kv.1
      rw [hmdk, hi] at hchar
      have hchar2 : dictGet (getProposedChanges item md) kv.1 =
          (if c0 ≠ kv.2 then some (c0, kv.2) else none) := hchar
      by_cases hc : c0 ≠ kv.2
      · rw [if_pos hc] at hchar2
        have hmem : (kv.1, (c0, kv.2)) ∈ getProposedChanges item md :=
          dictGet_some_mem _ _ _ hchar2
        have hfk : fails kv.1 = false :=
          hf kv.1 (List.mem_map_of_mem Prod.fst hmem)
        have hw := apply_fold_item_written fails (getProposedChanges item md)
          (item, []) kv.1 c0 kv.2 (gpc_keys_nodup item md) hmem hfk
        rw [hitem, hw] at hcur
        injection hcur with hcur
        exact hcur.symm
      · rw [if_neg hc] at hchar2
        have hnotin : kv.1 ∉ (getProposedChanges item md).map Prod.fst :=
          (dictGet_eq_none_iff _ kv.1).mp hchar2
        rw [hitem, apply_fold_item_untouched fails kv.1 _ _ (Or.inr hnotin)] at hcur
        have hcur2 : item kv.1 = some cur := hcur
        rw [hi] at hcur2
        injection hcur2 with hcur2
        rw [← hcur2]
        exact not_not.mp hc

/-- Witness for C8: applying the proposed changes for
`{title: "New", year: 2020}` to `itemOld` and recomputing yields no
further changes. -/
theorem apply_then_recompute_empty_witness :
    getProposedChanges
      (applyChanges (fun _ => false) itemOld
        (getProposedChanges itemOld
          [("title", Value.str "New"), ("year", Value.int 2020)])).item
      [("title", Value.str "New"), ("year", Value.int 2020)] = [] :=
  apply_then_recompute_empty itemOld
    [("title", Value.str "New"), ("year", Value.int 2020)]
    (fun _ => false) (by decide) (fun _ _ => rfl)

/-! ## Duplicates in union-merged sequences -/

/-- C9 counterexample: under the union (`'all'`) strategy a source value
that is itself a list is stored verbatim when the field is unset, so a
single source contributing `genre = ["Rock", "Rock"]` yields a merged
sequence with a duplicate element. -/
theorem union_merged_list_can_duplicate :
    dictGet (mergeMetadataForItem "all" ["A"] mdDupList []) "genre" =
      some (Value.list [Value.str "Rock", Value.str "Rock"]) ∧
    ¬ ([Value.str "Rock", Value.str "Rock"] : List Value).Nodup := by
  exact ⟨by decide, by decide⟩

theorem unionStep_preserves_nodup (exclude : List String) (m : Dict Value)
    (kv : String × Value) (hscalar : kv.2.isList = false)
    (hm : ∀ k l, dictGet m k = some (Value.list l) → l.Nodup) :
    ∀ k l, dictGet (unionStep exclude m kv) k = some (Value.list l) →
      l.Nodup := by
  intro k l h
  by_cases hkey : kv.1 = k
  · subst hkey
    rw [unionStep_get_self exclude m kv] at h
    split at h
    · cases hg : dictGet m kv.1 with
      | none =>
          rw [hg] at h
          simp only [unionResolve, Option.some.injEq] at h
          rw [h] at hscalar
          simp [Value.isList] at hscalar
      | some old =>
          cases old with
          | list l0 =>
              rw [hg] at h
              by_cases hvl : kv.2 ∈ l0
              · simp only [unionResolve, hvl, if_true, Option.some.injEq,
                  Value.list.injEq] at h
                rw [← h]
                exact hm kv.1 l0 hg
              · simp only [unionResolve, hvl, if_false, Option.some.injEq,
                  Value.list.injEq] at h
                rw [← h]
                exact (hm kv.1 l0 hg).append (List.nodup_singleton _)
                  (List.disjoint_singleton.mpr hvl)
          | null =>
              rw [hg] at h
              by_cases ho : Value.null = kv.2
              · simp only [unionResolve, ho, if_true, Option.some.injEq] at h
                rw [← ho] at h
                cases h
              · simp only [unionResolve, ho, if_false, Option.some.injEq,
                  Value.list.injEq] at h
                rw [← h]
                simp [ho]
          | str s =>
              rw [hg] at h
              by_cases ho : Value.str s = kv.2
              · simp only [unionResolve, ho, if_true, Option.some.injEq] at h
                rw [← ho] at h
                cases h
              · simp only [unionResolve, ho, if_false, Option.some.injEq,
                  Value.list.injEq] at h
                rw [← h]
                simp [ho]
          | int n =>
              rw [hg] at h
              by_cases ho : Value.int n = kv.2
              · simp only [unionResolve, ho, if_true, Option.some.injEq] at h
                rw [← ho] at h
                cases h
              · simp only [unionResolve, ho, if_false, Option.some.injEq,
                  Value.list.injEq] at h
                rw [← h]
                simp [ho]
    · exact hm kv.1 l h
  · rw [unionStep_get_ne exclude m kv k hkey] at h
    exact hm k l h

/-- C9 amended: under the union (`'all'`) strategy a later source's value
equal to an element already in the merged sequence is never appended; so
whenever every contributed source value is a scalar (not itself a list),
every sequence in the merged dictionary is duplicate-free.  A list taken
verbatim from a single source, however, is stored as-is and may keep its
internal duplicates. -/
theorem union_nodup_for_scalar_sources (sources : List String)
    (metadata : String → Option (Dict Value)) (exclude : List String)
    (hscalar : ∀ s d, metadata s = some d → ∀ kv ∈ d, kv.2.isList = false) :
    ∀ k l, dictGet (mergeMetadataForItem "all" sources metadata exclude) k =
      some (Value.list l) → l.Nodup := by
  have hbase : ∀ k l, dictGet ([] : Dict Value) k = some (Value.list l) →
      List.Nodup l := by
    intro k l h
    simp [dictGet] at h
  unfold mergeMetadataForItem
  rw [if_pos rfl]
  refine foldl_preserve
    (fun m => ∀ k l, dictGet m k = some (Value.list l) → List.Nodup l)
    (mergeSource (unionStep exclude) metadata) sources [] ?_ hbase
  intro m s _ hm
  unfold mergeSource
  cases hms : metadata s with
  | none => exact hm
  | some d =>
      refine foldl_preserve
        (fun m => ∀ k l, dictGet m k = some (Value.list l) → List.Nodup l)
        (unionStep exclude) d m ?_ hm
      intro m' kv hkv hm'
      exact unionStep_preserves_nodup exclude m' kv (hscalar s d hms kv hkv) hm'

/-- Witness for the amended C9: two scalar sources for `genre` produce
the duplicate-free merged list `["Rock", "Pop"]`. -/
theorem union_nodup_for_scalar_sources_witness :
    ([Value.str "Rock", Value.str "Pop"] : List Value).Nodup := by
  refine union_nodup_for_scalar_sources ["A", "B"] mdGenreAB [] ?_ "genre"
    [Value.str "Rock", Value.str "Pop"] (by decide)
  intro s d hd kv hkv
  unfold mdGenreAB at hd
  by_cases h1 : s = "A"
  · rw [if_pos h1] at hd
    injection hd with hd
    rw [← hd] at hkv
    simp only [List.mem_singleton] at hkv
    rw [hkv]
    rfl
  · rw [if_neg h1] at hd
    by_cases h2 : s = "B"
    · rw [if_pos h2] at hd
      injection hd with hd
      rw [← hd] at hkv
      simp only [List.mem_singleton] at hkv
      rw [hkv]
      rfl
    · rw [if_neg h2] at hd
      cases hd

/-! ## Storing happens iff some write succeeded -/

/-- C10: `_apply_changes` reaches `item.store()` (line 569) exactly when
`applied_changes` is non-empty, i.e. iff at least one field write of the
change set succeeded; when every write fails the record is never
stored. -/
theorem stored_iff_some_write_succeeds (fails : String → Bool)
    (item : String → Option Value) (changes : Dict (Value × Value)) :
    (applyChanges fails item changes).stored = true ↔
      ∃ k, k ∈ changes.map Prod.fst ∧ fails k = false := by
  show (!(changes.foldl (applyStep fails) (item, [])).2.isEmpty) = true ↔ _
  rw [apply_fold_applied fails changes (item, [])]
  rw [List.nil_append, Bool.not_eq_true']
  constructor
  · intro h
    have hne : (List.map Prod.fst changes).filter (fun k => !fails k) ≠ [] := by
      intro hnil
      rw [hnil] at h
      simp at h
    rcases List.exists_mem_of_ne_nil _ hne with ⟨k, hkmem⟩
    rcases List.mem_filter.mp hkmem with ⟨hk, hfk⟩
    refine ⟨k, hk, ?_⟩
    simpa using hfk
  · rintro ⟨k, hk, hfk⟩
    have hmem : k ∈ (List.map Prod.fst changes).filter (fun k => !fails k) :=
      List.mem_filter.mpr ⟨hk, by simp [hfk]⟩
    cases hfilter : (List.map Prod.fst changes).filter (fun k => !fails k) with
    | nil =>
        rw [hfilter] at hmem
        cases hmem
    | cons a l => rfl

end MetaImport
